import Mathlib

/-!
Shallow embedding of `src/experiment/data_properties.py` from the
crypto-volatility-forecasting repository.

Tables are lists of records; a pandas DataFrame column is a record field.
Machine floats (RMSE values) are modelled as rationals.  Calls that can raise
(`pd.read_csv`, the missing-pivot-column access in `high_auto_cor`,
`scipy.stats.mannwhitneyu` on degenerate input) are modelled with
`Except` / `Option`.  Row order of grouped / merged tables is abstracted
(pandas sorts group keys; none of the verified properties mention order).
-/

/-- One row of a `{test_type}_log_returns.csv` autocorrelation table:
columns Coin, Time Frame, Result (data_properties.py line 16). -/
structure TestRow where
  coin : String
  timeFrame : String
  result : String
deriving DecidableEq

/-- One row of the table returned by `high_auto_cor`:
columns Coin, Time Frame, Predominantly (line 33). -/
structure LabelRow where
  coin : String
  timeFrame : String
  predominantly : String
deriving DecidableEq

/-- One row of a labeled table with a Result column, such as the `overlap`
table of `auto_correlation` (line 81) or the reduced trend table (line 118). -/
structure ResRow where
  coin : String
  timeFrame : String
  result : String
deriving DecidableEq

/-- One row of `trend_results_log_returns.csv` (line 109): Coin, Time Frame,
then one categorical outcome column per trend test. -/
structure TrendRow where
  coin : String
  timeFrame : String
  tests : List String
deriving DecidableEq

/-- One row of `unconditional_heteroskedasticity_log_returns.csv` (line 177). -/
structure HetRow where
  coin : String
  timeFrame : String
  breuschPagan : String
  goldfeldQuandt : String
deriving DecidableEq

/-- One row of a `read_rmse_csv` result: index Coin, one average-RMSE column
per forecasting model, modelled as an association list. -/
structure RmseRow where
  coin : String
  errs : List (String × ℚ)
deriving DecidableEq

/-- One row of the concatenated RMSE table built in `merge_rmse`
(lines 38-53): a `RmseRow` tagged with its time frame. -/
structure RmseTRow where
  coin : String
  timeFrame : String
  errs : List (String × ℚ)
deriving DecidableEq

/-- The (Coin, Time Frame) key of a `TestRow`. -/
def testKey (r : TestRow) : String × String := (r.coin, r.timeFrame)

/-- The (Coin, Time Frame) key of a `LabelRow`. -/
def labKey (r : LabelRow) : String × String := (r.coin, r.timeFrame)

/-- The (Coin, Time Frame) key of a `ResRow`. -/
def resKey (r : ResRow) : String × String := (r.coin, r.timeFrame)

/-- The (Coin, Time Frame) key of an `RmseTRow`. -/
def rmsKey (r : RmseTRow) : String × String := (r.coin, r.timeFrame)

/-- Count of rows of group (c, t) whose Result is "Autocorrelated": the
`groupby(["Coin", "Time Frame", "Result"]).size()` count that the pivot of
lines 19-26 puts in the "Autocorrelated" column (0 when the group has no
such row, from `fill_value=0`). -/
def autoCount (df : List TestRow) (c t : String) : Nat :=
  df.countP (fun r => r.coin = c ∧ r.timeFrame = t ∧ r.result = "Autocorrelated")

/-- The output row of `high_auto_cor` for one (Coin, Time Frame) group:
`np.where(pivot_df["Autocorrelated"] > 49, "Autocorrelated",
"Not Autocorrelated")` (lines 29-31). -/
def labelFor (df : List TestRow) (k : String × String) : LabelRow :=
  ⟨k.1, k.2,
    if 49 < autoCount df k.1 k.2 then "Autocorrelated" else "Not Autocorrelated"⟩

/-- The table `high_auto_cor` returns when the pivot has an "Autocorrelated"
column: one row per distinct (Coin, Time Frame) key of the input
(lines 19-33; key order abstracted). -/
def highAutoCorTable (df : List TestRow) : List LabelRow :=
  ((df.map testKey).dedup).map (labelFor df)

/-- `high_auto_cor` (lines 14-33).  The pivot of lines 24-26 only has an
"Autocorrelated" column when some input row has that Result; otherwise
line 30 (`pivot_df["Autocorrelated"]`) raises KeyError, modelled as `none`. -/
def highAutoCor (df : List TestRow) : Option (List LabelRow) :=
  if df.any (fun r => r.result = "Autocorrelated") then some (highAutoCorTable df)
  else none

/-- Predominantly label of the row of `t` keyed by `k`, if any. -/
def labLookup (t : List LabelRow) (k : String × String) : Option String :=
  (t.find? (fun r => labKey r = k)).map (fun r => r.predominantly)

/-- Result label of the row of `t` keyed by `k`, if any. -/
def resLookup (t : List ResRow) (k : String × String) : Option String :=
  (t.find? (fun r => resKey r = k)).map (fun r => r.result)

/-- The combined row of the outer merge of `auto_correlation` (lines 67-79)
for key `k`.  A key missing from one side leaves that side's Predominantly
cell NaN (here `none`), and NaN compares unequal to "Autocorrelated", so the
`np.where` conjunction of lines 74-79 yields "Not Autocorrelated". -/
def combinedRow (lj br : List LabelRow) (k : String × String) : ResRow :=
  ⟨k.1, k.2,
    if labLookup lj k = some "Autocorrelated" ∧ labLookup br k = some "Autocorrelated"
    then "Autocorrelated" else "Not Autocorrelated"⟩

/-- The `overlap` table of `auto_correlation` (lines 67-81): outer merge of
the two reduced tables on (Coin, Time Frame) followed by the conjunction.
Both arguments are `high_auto_cor` outputs, whose keys are duplicate-free,
so the outer merge has one row per key of the union. -/
def overlapTable (lj br : List LabelRow) : List ResRow :=
  ((lj.map labKey ++ br.map labKey).dedup).map (combinedRow lj br)

/-- The combined-Result table built by `auto_correlation` (lines 61-81);
`none` when either `high_auto_cor` call raises. -/
def autoCorOverlap (d1 d2 : List TestRow) : Option (List ResRow) :=
  match highAutoCor d1, highAutoCor d2 with
  | some lj, some br => some (overlapTable lj br)
  | _, _ => none

/-- Modelled from the spec: `read_rmse_csv` (module `experiment.rmse`, not in
src/) is the external RMSE provider, "a function returning, for a given
forecasting-model-output type and time-frame, ... a table indexed by asset
with one column per forecasting model's error value"; here it is an opaque
parameter `rmseFor`.  This definition is the concatenation loop of
`merge_rmse` (lines 38-53): each per-time-frame chunk gets a Time Frame
column and a Coin column from its index, then the chunks are concatenated. -/
def rmseTable (tfs : List String) (rmseFor : String → List RmseRow) : List RmseTRow :=
  tfs.flatMap (fun tf => (rmseFor tf).map (fun r => ⟨r.coin, tf, r.errs⟩))

/-- `pd.merge(df, rmse_df, how="inner", on=["Coin", "Time Frame"])`
(line 56): every pairing of a left row and a right row with equal keys,
in left-row order. -/
def innerMerge {α : Type} (coinOf tfOf : α → String) (rt : List RmseTRow)
    (df : List α) : List (α × RmseTRow) :=
  df.flatMap (fun l =>
    (rt.filter (fun r => coinOf l = r.coin ∧ tfOf l = r.timeFrame)).map (fun r => (l, r)))

/-- `merge_rmse` (lines 36-58): build the concatenated RMSE table, then
inner-join it onto `df` on (Coin, Time Frame). -/
def mergeRmse {α : Type} (coinOf tfOf : α → String) (tfs : List String)
    (rmseFor : String → List RmseRow) (df : List α) : List (α × RmseTRow) :=
  innerMerge coinOf tfOf (rmseTable tfs rmseFor) df

/-- The `df[df[...] == result][model]` column access: the model's error value
of a merged row (0 stands in for a missing model column, which the verified
statements never exercise). -/
def errOf (m : String) (r : RmseTRow) : ℚ :=
  ((r.errs.find? (fun e => e.1 = m)).map (fun e => e.2)).getD 0

/-- Distinct values in first-occurrence order, as `pandas.Series.unique` and
`collections.Counter` key order. -/
def firstDedup (l : List String) : List String :=
  l.foldl (fun acc x => if x ∈ acc then acc else acc ++ [x]) []

/-- The label partition of the error column:
`[df[df[col] == result][model] for result in df[col].unique()]`
(lines 131, 188-191, 196-199). -/
def groupsBy {α : Type} (labelOf : α → String) (merged : List (α × RmseTRow))
    (m : String) : List (List ℚ) :=
  (firstDedup (merged.map (fun p => labelOf p.1))).map
    (fun v => (merged.filter (fun p => labelOf p.1 = v)).map (fun p => errOf m p.2))

/-- Mann-Whitney U statistic of the first sample: the number of (x, y) pairs
with x > y, counting ties one half; written over a common denominator 2 so
that it is kernel-computable. -/
def u1stat (x y : List ℚ) : ℚ :=
  mkRat (2 * (x.map (fun a => y.countP (fun b => b < a))).sum
          + (x.map (fun a => y.countP (fun b => b = a))).sum) 2

/-- Modelled from the spec: `scipy.stats.mannwhitneyu` (external library call,
a spec non-goal) has the contract "given grouped numeric samples, return a
test statistic and p-value", raising when it is not given exactly two
samples or when a sample is empty.  `none` models exactly the raising cases;
on success the test statistic (and with it the p-value scipy derives from
it) is computable, so `Option.isSome` captures "returns a computable
(non-crashing) p-value". -/
def mannwhitneyu (groups : List (List ℚ)) : Option ℚ :=
  match groups with
  | [x, y] => if x.isEmpty || y.isEmpty then none else some (u1stat x y)
  | _ => none

/-- The `results` dict of the Mann-Whitney loop of `trend`
(lines 128-134), also the shape of `cond_het` and `stochasticity`:
one Mann-Whitney call per model over the Result-label partition. -/
def trendComparator (models : List String) (merged : List (ResRow × RmseTRow)) :
    List (String × Option ℚ) :=
  models.map (fun m => (m, mannwhitneyu (groupsBy ResRow.result merged m)))

/-- The Mann-Whitney invocations of `uncon_het` (lines 186-203), in order:
the `breusch_results` loop (one call per model over the Breusch-Pagan
partition) followed by the `goldfeld_results` loop (one call per model over
the Goldfeld-Quandt partition). -/
def unconHetTests (models : List String) (merged : List (HetRow × RmseTRow)) :
    List (String × Option ℚ) :=
  models.map (fun m => (m, mannwhitneyu (groupsBy HetRow.breuschPagan merged m)))
    ++ models.map (fun m => (m, mannwhitneyu (groupsBy HetRow.goldfeldQuandt merged m)))

/-- First element of `keys` attaining the maximal multiplicity in `row`:
`Counter(row).most_common(1)[0][0]`, whose tie-break is first insertion
order because Counter preserves insertion order and `most_common` sorts
stably by descending count. -/
def argmaxFirst (row : List String) (keys : List String) : String :=
  keys.foldl (fun best k => if row.count best < row.count k then k else best)
    (keys.headD "")

/-- `find_majority` (lines 99-104): the most common value of the row, ties
broken by first occurrence. -/
def findMajority (row : List String) : String :=
  argmaxFirst row (firstDedup row)

/-- The cell sequence `df.apply(find_majority, axis=1)` hands to
`find_majority` for one row (line 115): the whole row in column order,
Coin and Time Frame included, since the apply happens before the column
selection of line 118. -/
def rowCells (r : TrendRow) : List String := r.coin :: r.timeFrame :: r.tests

/-- The Result column built by `trend` at line 115. -/
def trendResultColumn (df : List TrendRow) : List String :=
  df.map (fun r => findMajority (rowCells r))

/-- Whether `pat` begins `s`. -/
def leadsWith : List Char → List Char → Bool
  | [], _ => true
  | _ :: _, [] => false
  | a :: pa, b :: pb => a == b && leadsWith pa pb

/-- Fuel-driven left-to-right non-overlapping substring replacement; with
`fuel ≥ s.length` (and a nonempty pattern, the only use here) this is
Python's `str.replace(pat, rep)`.  Fuel keeps the recursion structural so
the kernel can evaluate it. -/
def replaceSubFuel : Nat → List Char → List Char → List Char → List Char
  | 0, _, _, s => s
  | _ + 1, _, _, [] => []
  | fuel + 1, pat, rep, c :: tl =>
    if leadsWith pat (c :: tl) then
      rep ++ replaceSubFuel fuel pat rep (tl.drop (pat.length - 1))
    else c :: replaceSubFuel fuel pat rep tl

/-- Python `s.replace(pat, rep)` for a nonempty literal `pat`, the operation
`pandas.Series.str.replace` applies to every cell (lines 121-122). -/
def replaceSub (pat rep s : List Char) : List Char :=
  replaceSubFuel s.length pat rep s

/-- Whether `pat` occurs as a contiguous substring of `s`. -/
def hasOcc (pat : List Char) : List Char → Bool
  | [] => pat.isEmpty
  | c :: tl => leadsWith pat (c :: tl) || hasOcc pat tl

/-- `df["Result"].str.replace(pat, rep)` over a column of cells. -/
def colReplace (pat rep : List Char) (col : List (List Char)) : List (List Char) :=
  col.map (replaceSub pat rep)

/-- Lines 121-122: replace "increasing" with "trend" across the Result
column, then "decreasing" with "trend". -/
def foldDirectionalColumn (col : List (List Char)) : List (List Char) :=
  colReplace ("decreasing".toList) ("trend".toList)
    (colReplace ("increasing".toList) ("trend".toList) col)

/-- Modelled from the spec: the loader contract for `pd.read_csv` (an
external call) is "fails (propagates a file-not-found or parse error) if
the file is absent or malformed". -/
inductive LoadError where
  | fileNotFound : LoadError
  | parseError : LoadError
deriving DecidableEq

/-- `high_auto_cor` applied to its loader's outcome (line 16): the analysis
body runs only on a successfully parsed table; there is no handler, so a
loader error propagates unchanged. -/
def highAutoCorFromCsv (input : Except LoadError (List TestRow)) :
    Except LoadError (Option (List LabelRow)) :=
  input.map highAutoCor

/-- The Result-column computation of `trend` applied to its loader's outcome
(line 109): no handler, loader errors propagate unchanged. -/
def trendFromCsv (input : Except LoadError (List TrendRow)) :
    Except LoadError (List String) :=
  input.map trendResultColumn

/-! Helper lemmas about key-indexed lookups and the tables built over
deduplicated key lists. -/

lemma find?_key_map {R : Type} (keyf : R → String × String)
    (build : String × String → R) (hkey : ∀ k, keyf (build k) = k)
    (ks : List (String × String)) (k : String × String) (hk : k ∈ ks) :
    (ks.map build).find? (fun r => keyf r = k) = some (build k) := by
  induction ks with
  | nil => cases hk
  | cons a t ih =>
    rw [List.map_cons]
    by_cases h : a = k
    · subst h
      rw [List.find?_cons_of_pos _ (by simp [hkey])]
    · rw [List.find?_cons_of_neg _ (by simp [hkey, h])]
      exact ih ((List.mem_cons.mp hk).resolve_left (fun he => h he.symm))

lemma find?_none_of_key_not_mem {R : Type} (keyf : R → String × String)
    (t : List R) (k : String × String) (hk : k ∉ t.map keyf) :
    t.find? (fun r => keyf r = k) = none := by
  rw [List.find?_eq_none]
  intro x hx
  simp only [decide_eq_true_eq]
  intro he
  exact hk (List.mem_map.mpr ⟨x, hx, he⟩)

lemma highAutoCorTable_keys (df : List TestRow) :
    (highAutoCorTable df).map labKey = (df.map testKey).dedup := by
  unfold highAutoCorTable
  rw [List.map_map]
  have h : labKey ∘ labelFor df = id := by
    funext k
    simp [labKey, labelFor]
  rw [h, List.map_id]

lemma highAutoCor_some (df : List TestRow) (out : List LabelRow)
    (h : highAutoCor df = some out) : out = highAutoCorTable df := by
  unfold highAutoCor at h
  split at h
  · exact (Option.some.inj h).symm
  · simp at h

lemma resLookup_overlap (lj br : List LabelRow) (k : String × String)
    (hk : k ∈ lj.map labKey ∨ k ∈ br.map labKey) :
    resLookup (overlapTable lj br) k
      = some (if labLookup lj k = some "Autocorrelated"
                  ∧ labLookup br k = some "Autocorrelated"
              then "Autocorrelated" else "Not Autocorrelated") := by
  have hkmem : k ∈ (lj.map labKey ++ br.map labKey).dedup := by
    rw [List.mem_dedup, List.mem_append]
    exact hk
  have hfind : (overlapTable lj br).find? (fun r => resKey r = k)
      = some (combinedRow lj br k) := by
    unfold overlapTable
    exact find?_key_map resKey (combinedRow lj br)
      (fun k => by simp [resKey, combinedRow]) _ k hkmem
  unfold resLookup
  rw [hfind]
  rfl

/-- C1: for every (Coin, Time Frame) pair present in both the Ljung-Box and
Breusch-Godfrey reduced tables, `auto_correlation` assigns the combined label
"Autocorrelated" iff both families' reduced labels are "Autocorrelated"; if
either family's label is "Not Autocorrelated", the combined label is
"Not Autocorrelated". -/
theorem autoCorrelation_agreement_conjunction
    (d1 d2 : List TestRow) (lj br : List LabelRow) (k : String × String)
    (h1 : highAutoCor d1 = some lj) (h2 : highAutoCor d2 = some br)
    (hk1 : k ∈ lj.map labKey) (_hk2 : k ∈ br.map labKey) :
    autoCorOverlap d1 d2 = some (overlapTable lj br)
    ∧ (resLookup (overlapTable lj br) k = some "Autocorrelated"
        ↔ (labLookup lj k = some "Autocorrelated"
            ∧ labLookup br k = some "Autocorrelated"))
    ∧ ((labLookup lj k = some "Not Autocorrelated"
          ∨ labLookup br k = some "Not Autocorrelated")
        → resLookup (overlapTable lj br) k = some "Not Autocorrelated") := by
  have hov : autoCorOverlap d1 d2 = some (overlapTable lj br) := by
    unfold autoCorOverlap
    rw [h1, h2]
  have hres := resLookup_overlap lj br k (Or.inl hk1)
  refine ⟨hov, ?_, ?_⟩
  · by_cases hc : labLookup lj k = some "Autocorrelated"
        ∧ labLookup br k = some "Autocorrelated"
    · rw [hres, if_pos hc]
      simp [hc]
    · rw [hres, if_neg hc]
      constructor
      · intro hcontra
        simp at hcontra
      · intro hc2
        exact absurd hc2 hc
  · intro hor
    have hc : ¬(labLookup lj k = some "Autocorrelated"
        ∧ labLookup br k = some "Autocorrelated") := by
      rcases hor with h | h <;> rintro ⟨ha, hb⟩
      · rw [h] at ha
        simp at ha
      · rw [h] at hb
        simp at hb
    rw [hres, if_neg hc]

theorem autoCorrelation_agreement_conjunction_witness :
    resLookup
      (overlapTable [⟨"BTC", "1d", "Not Autocorrelated"⟩]
        [⟨"BTC", "1d", "Not Autocorrelated"⟩]) ("BTC", "1d")
      = some "Not Autocorrelated" :=
  (autoCorrelation_agreement_conjunction
    [⟨"BTC", "1d", "Autocorrelated"⟩] [⟨"BTC", "1d", "Autocorrelated"⟩]
    [⟨"BTC", "1d", "Not Autocorrelated"⟩] [⟨"BTC", "1d", "Not Autocorrelated"⟩]
    ("BTC", "1d") (by decide) (by decide) (by decide) (by decide)).2.2
    (Or.inl (by decide))

/-- C9: a (Coin, Time Frame) pair present in exactly one of the two reduced
tables is kept by the outer merge, the missing family's label stays null,
and the combined label is "Not Autocorrelated". -/
theorem autoCorrelation_missing_family_default
    (d1 d2 : List TestRow) (lj br : List LabelRow) (k : String × String)
    (h1 : highAutoCor d1 = some lj) (h2 : highAutoCor d2 = some br)
    (hk : (k ∈ lj.map labKey ∧ k ∉ br.map labKey)
        ∨ (k ∉ lj.map labKey ∧ k ∈ br.map labKey)) :
    autoCorOverlap d1 d2 = some (overlapTable lj br)
    ∧ (labLookup lj k = none ∨ labLookup br k = none)
    ∧ resLookup (overlapTable lj br) k = some "Not Autocorrelated" := by
  have hov : autoCorOverlap d1 d2 = some (overlapTable lj br) := by
    unfold autoCorOverlap
    rw [h1, h2]
  have hres := resLookup_overlap lj br k
    (by rcases hk with ⟨h, _⟩ | ⟨_, h⟩; exacts [Or.inl h, Or.inr h])
  rcases hk with ⟨_, habs⟩ | ⟨habs, _⟩
  · have hnone : labLookup br k = none := by
      unfold labLookup
      rw [find?_none_of_key_not_mem labKey br k habs]
      rfl
    refine ⟨hov, Or.inr hnone, ?_⟩
    rw [hres, if_neg]
    rintro ⟨_, hb⟩
    rw [hnone] at hb
    simp at hb
  · have hnone : labLookup lj k = none := by
      unfold labLookup
      rw [find?_none_of_key_not_mem labKey lj k habs]
      rfl
    refine ⟨hov, Or.inl hnone, ?_⟩
    rw [hres, if_neg]
    rintro ⟨ha, _⟩
    rw [hnone] at ha
    simp at ha

theorem autoCorrelation_missing_family_default_witness :
    resLookup
      (overlapTable [⟨"BTC", "1d", "Not Autocorrelated"⟩]
        [⟨"ETH", "1h", "Not Autocorrelated"⟩]) ("BTC", "1d")
      = some "Not Autocorrelated" :=
  (autoCorrelation_missing_family_default
    [⟨"BTC", "1d", "Autocorrelated"⟩] [⟨"ETH", "1h", "Autocorrelated"⟩]
    [⟨"BTC", "1d", "Not Autocorrelated"⟩] [⟨"ETH", "1h", "Not Autocorrelated"⟩]
    ("BTC", "1d") (by decide) (by decide)
    (Or.inl ⟨by decide, by decide⟩)).2.2

/-- C2: for every (Coin, Time Frame) group of a test family's input table,
`high_auto_cor` labels the pair "Autocorrelated" exactly when the group's
count of "Autocorrelated" outcomes is strictly greater than 49; a count of
exactly 49 yields "Not Autocorrelated" and a count of 50 yields
"Autocorrelated". -/
theorem highAutoCor_threshold_boundary
    (df : List TestRow) (out : List LabelRow) (row : LabelRow)
    (hout : highAutoCor df = some out) (hrow : row ∈ out) :
    (row.predominantly = "Autocorrelated"
        ↔ 49 < autoCount df row.coin row.timeFrame)
    ∧ (autoCount df row.coin row.timeFrame = 49
        → row.predominantly = "Not Autocorrelated")
    ∧ (autoCount df row.coin row.timeFrame = 50
        → row.predominantly = "Autocorrelated") := by
  have hout' : out = highAutoCorTable df := highAutoCor_some df out hout
  subst hout'
  unfold highAutoCorTable at hrow
  rcases List.mem_map.mp hrow with ⟨k, hk, hbuild⟩
  subst hbuild
  by_cases h49 : 49 < autoCount df k.1 k.2
  · refine ⟨by simp [labelFor, h49], fun h => ?_, fun _ => by simp [labelFor, h49]⟩
    rw [show (labelFor df k).coin = k.1 from rfl,
      show (labelFor df k).timeFrame = k.2 from rfl] at h
    omega
  · refine ⟨by simp [labelFor, h49], fun _ => by simp [labelFor, h49], fun h => ?_⟩
    rw [show (labelFor df k).coin = k.1 from rfl,
      show (labelFor df k).timeFrame = k.2 from rfl] at h
    omega

theorem highAutoCor_threshold_boundary_witness :
    ((⟨"BTC", "1d", "Not Autocorrelated"⟩ : LabelRow).predominantly
      = "Not Autocorrelated")
    ∧ ((⟨"BTC", "1d", "Autocorrelated"⟩ : LabelRow).predominantly
      = "Autocorrelated") := by
  constructor
  · exact (highAutoCor_threshold_boundary
      (List.replicate 49 ⟨"BTC", "1d", "Autocorrelated"⟩)
      [⟨"BTC", "1d", "Not Autocorrelated"⟩] ⟨"BTC", "1d", "Not Autocorrelated"⟩
      (by decide) (by decide)).2.1 (by decide)
  · exact (highAutoCor_threshold_boundary
      (List.replicate 50 ⟨"BTC", "1d", "Autocorrelated"⟩)
      [⟨"BTC", "1d", "Autocorrelated"⟩] ⟨"BTC", "1d", "Autocorrelated"⟩
      (by decide) (by decide)).2.2 (by decide)

/-- C10 counterexample: on an input table with one distinct (Coin, Time
Frame) pair but no "Autocorrelated" outcome anywhere, the pivot of
`high_auto_cor` has no "Autocorrelated" column, so line 30 raises KeyError:
no table with one row per distinct input pair is returned. -/
theorem highAutoCor_shape_counterexample :
    highAutoCor [⟨"BTC", "1d", "Not Autocorrelated"⟩] = none
    ∧ (([⟨"BTC", "1d", "Not Autocorrelated"⟩] : List TestRow).map testKey).dedup
        = [("BTC", "1d")] := by decide

/-- C10 (amended): whenever `high_auto_cor` returns a table (i.e. at least
one input row has Result "Autocorrelated"), that table has exactly the
columns Coin, Time Frame, Predominantly (the fields of `LabelRow`), exactly
one row per distinct (Coin, Time Frame) pair of the input, and every
Predominantly value is "Autocorrelated" or "Not Autocorrelated". -/
theorem highAutoCor_label_shape
    (df : List TestRow) (out : List LabelRow)
    (hout : highAutoCor df = some out) :
    out.map labKey = (df.map testKey).dedup
    ∧ (out.map labKey).Nodup
    ∧ ∀ r ∈ out, r.predominantly = "Autocorrelated"
        ∨ r.predominantly = "Not Autocorrelated" := by
  have hout' : out = highAutoCorTable df := highAutoCor_some df out hout
  subst hout'
  refine ⟨highAutoCorTable_keys df, ?_, ?_⟩
  · rw [highAutoCorTable_keys]
    exact (df.map testKey).nodup_dedup
  · intro r hr
    rcases List.mem_map.mp hr with ⟨k, _, hbuild⟩
    subst hbuild
    by_cases h49 : 49 < autoCount df k.1 k.2 <;> simp [labelFor, h49]

theorem highAutoCor_label_shape_witness :
    ([(⟨"BTC", "1d", "Not Autocorrelated"⟩ : LabelRow)].map labKey)
      = (([⟨"BTC", "1d", "Autocorrelated"⟩] : List TestRow).map testKey).dedup :=
  (highAutoCor_label_shape [⟨"BTC", "1d", "Autocorrelated"⟩]
    [⟨"BTC", "1d", "Not Autocorrelated"⟩] (by decide)).1

/-! Counting helpers for the inner-join bounds. -/

lemma countP_imp_le {α : Type} (p q : α → Bool) (l : List α)
    (h : ∀ a ∈ l, p a = true → q a = true) : l.countP p ≤ l.countP q := by
  induction l with
  | nil => simp
  | cons a t ih =>
    have ht := ih (fun b hb => h b (List.mem_cons_of_mem a hb))
    rw [List.countP_cons, List.countP_cons]
    have hif : (if p a then (1 : Nat) else 0) ≤ (if q a then (1 : Nat) else 0) := by
      by_cases hp : p a = true
      · simp [hp, h a (List.mem_cons_self a t) hp]
      · simp [hp]
    omega

lemma countP_key_le_one {R K : Type} [DecidableEq K] (keyf : R → K) (t : List R)
    (h : (t.map keyf).Nodup) (k : K) : t.countP (fun r => keyf r = k) ≤ 1 := by
  induction t with
  | nil => simp
  | cons a t ih =>
    rw [List.map_cons, List.nodup_cons] at h
    rw [List.countP_cons]
    by_cases hk : keyf a = k
    · have hz : t.countP (fun r => keyf r = k) = 0 := by
        rw [List.countP_eq_zero]
        intro b hb
        simp only [decide_eq_true_eq]
        intro hbk
        exact h.1 (List.mem_map.mpr ⟨b, hb, hbk.trans hk.symm⟩)
      simp [hk, hz]
    · have ht := ih h.2
      simpa [hk] using ht

lemma countP_or_le {α : Type} (p q pq : α → Bool) (l : List α)
    (hdisj : ∀ a ∈ l, ¬(p a = true ∧ q a = true))
    (hor : ∀ a ∈ l, (p a = true ∨ q a = true) → pq a = true) :
    l.countP p + l.countP q ≤ l.countP pq := by
  induction l with
  | nil => simp
  | cons a t ih =>
    have ht := ih (fun b hb => hdisj b (List.mem_cons_of_mem a hb))
      (fun b hb => hor b (List.mem_cons_of_mem a hb))
    rw [List.countP_cons, List.countP_cons, List.countP_cons]
    by_cases hp : p a = true
    · have hq : ¬q a = true := fun hq => hdisj a (List.mem_cons_self a t) ⟨hp, hq⟩
      have hpq := hor a (List.mem_cons_self a t) (Or.inl hp)
      simp [hp, hq, hpq]
      omega
    · by_cases hq : q a = true
      · have hpq := hor a (List.mem_cons_self a t) (Or.inr hq)
        simp [hp, hq, hpq]
        omega
      · by_cases hpq : pq a = true
        · simp [hp, hq, hpq]
          omega
        · simp [hp, hq, hpq]
          omega

lemma headCount_eq_zero {α : Type} (coinOf tfOf : α → String) (rt : List RmseTRow)
    (l : α) (t : String) (ht : ¬tfOf l = t) :
    List.countP (fun p => tfOf p.1 = t)
      ((rt.filter (fun r => coinOf l = r.coin ∧ tfOf l = r.timeFrame)).map
        (fun r => (l, r))) = 0 := by
  rw [List.countP_eq_zero]
  intro p hp
  rcases List.mem_map.mp hp with ⟨r, _, rfl⟩
  simp [ht]

lemma headCount_le_tfKeyCount {α : Type} (coinOf tfOf : α → String)
    (rt : List RmseTRow) (l : α) (t : String) :
    List.countP (fun p => tfOf p.1 = t)
      ((rt.filter (fun r => coinOf l = r.coin ∧ tfOf l = r.timeFrame)).map
        (fun r => (l, r)))
      ≤ rt.countP (fun r => r.timeFrame = t ∧ rmsKey r = (coinOf l, tfOf l)) := by
  by_cases ht : tfOf l = t
  · apply le_trans (List.countP_le_length _)
    rw [List.length_map, ← List.countP_eq_length_filter]
    apply countP_imp_le
    intro r hr hq
    simp only [decide_eq_true_eq] at hq ⊢
    refine ⟨?_, ?_⟩
    · rw [← hq.2]
      exact ht
    · simp [rmsKey, ← hq.1, ← hq.2]
  · rw [headCount_eq_zero coinOf tfOf rt l t ht]
    exact Nat.zero_le _

lemma innerMerge_countTF_le_left {α : Type} (coinOf tfOf : α → String)
    (rt : List RmseTRow) (df : List α) (t : String)
    (h : (rt.map rmsKey).Nodup) :
    (innerMerge coinOf tfOf rt df).countP (fun p => tfOf p.1 = t)
      ≤ df.countP (fun l => tfOf l = t) := by
  induction df with
  | nil => simp [innerMerge]
  | cons l d ih =>
    simp only [innerMerge, List.flatMap_cons, List.countP_append]
    simp only [innerMerge] at ih
    have hhead := headCount_le_tfKeyCount coinOf tfOf rt l t
    have hone : rt.countP (fun r => r.timeFrame = t ∧ rmsKey r = (coinOf l, tfOf l))
        ≤ 1 := by
      refine le_trans (countP_imp_le _ (fun r => rmsKey r = (coinOf l, tfOf l)) rt ?_)
        (countP_key_le_one rmsKey rt h (coinOf l, tfOf l))
      intro r hr hp
      simp only [decide_eq_true_eq] at hp ⊢
      exact hp.2
    by_cases ht : tfOf l = t
    · have hc : List.countP (fun x => tfOf x = t) (l :: d)
          = List.countP (fun x => tfOf x = t) d + 1 := by
        simp [List.countP_cons, ht]
      omega
    · have hc : List.countP (fun x => tfOf x = t) (l :: d)
          = List.countP (fun x => tfOf x = t) d := by
        simp [List.countP_cons, ht]
      have hz := headCount_eq_zero coinOf tfOf rt l t ht
      omega

lemma innerMerge_countTF_le_keys {α : Type} (coinOf tfOf : α → String)
    (rt : List RmseTRow) (df : List α) (t : String)
    (h : (df.map (fun l => (coinOf l, tfOf l))).Nodup) :
    (innerMerge coinOf tfOf rt df).countP (fun p => tfOf p.1 = t)
      ≤ rt.countP
          (fun r => r.timeFrame = t ∧ rmsKey r ∈ df.map (fun l => (coinOf l, tfOf l))) := by
  induction df with
  | nil => simp [innerMerge]
  | cons l d ih =>
    rw [List.map_cons, List.nodup_cons] at h
    have ihd := ih h.2
    simp only [innerMerge, List.flatMap_cons, List.countP_append]
    simp only [innerMerge] at ihd
    have hhead := headCount_le_tfKeyCount coinOf tfOf rt l t
    have hsum := countP_or_le
      (fun r => r.timeFrame = t ∧ rmsKey r = (coinOf l, tfOf l))
      (fun r => r.timeFrame = t ∧ rmsKey r ∈ d.map (fun x => (coinOf x, tfOf x)))
      (fun r => r.timeFrame = t ∧ rmsKey r ∈ (l :: d).map (fun x => (coinOf x, tfOf x)))
      rt ?_ ?_
    · omega
    · intro r _ hand
      rcases hand with ⟨h1, h2⟩
      simp only [decide_eq_true_eq] at h1 h2
      exact h.1 (h1.2 ▸ h2.2)
    · intro r _ hor12
      simp only [decide_eq_true_eq] at hor12 ⊢
      rw [List.map_cons, List.mem_cons]
      rcases hor12 with h1 | h2
      · exact ⟨h1.1, Or.inl h1.2⟩
      · exact ⟨h2.1, Or.inr h2.2⟩

lemma innerMerge_countTF_le_right {α : Type} (coinOf tfOf : α → String)
    (rt : List RmseTRow) (df : List α) (t : String)
    (h : (df.map (fun l => (coinOf l, tfOf l))).Nodup) :
    (innerMerge coinOf tfOf rt df).countP (fun p => tfOf p.1 = t)
      ≤ rt.countP (fun r => r.timeFrame = t) := by
  refine le_trans (innerMerge_countTF_le_keys coinOf tfOf rt df t h)
    (countP_imp_le _ _ rt ?_)
  intro r _ hp
  simp only [decide_eq_true_eq] at hp ⊢
  exact hp.1

lemma innerMerge_mem {α : Type} (coinOf tfOf : α → String) (rt : List RmseTRow)
    (df : List α) (p : α × RmseTRow) (hp : p ∈ innerMerge coinOf tfOf rt df) :
    p.1 ∈ df ∧ p.2 ∈ rt ∧ coinOf p.1 = p.2.coin ∧ tfOf p.1 = p.2.timeFrame := by
  simp only [innerMerge] at hp
  rcases List.mem_flatMap.mp hp with ⟨l, hl, hpl⟩
  rcases List.mem_map.mp hpl with ⟨r, hr, rfl⟩
  rcases List.mem_filter.mp hr with ⟨hrt, hcond⟩
  simp only [decide_eq_true_eq] at hcond
  exact ⟨hl, hrt, hcond.1, hcond.2⟩

/-- C4: `merge_rmse` has inner-join semantics: with duplicate-free keys on
both sides (each source table has one row per (Coin, Time Frame) pair, as
in the spec's data model), the joined row count of any time frame is at most
the minimum of the two sides' row counts for that time frame; every output
row's (Coin, Time Frame) pair exists in both source tables; and a labeled
row without a matching error entry contributes no output row (it is dropped
silently). -/
theorem mergeRmse_inner_join
    (tfs : List String) (rmseFor : String → List RmseRow) (df : List ResRow)
    (t : String)
    (hL : (df.map (fun l : ResRow => (l.coin, l.timeFrame))).Nodup)
    (hR : ((rmseTable tfs rmseFor).map rmsKey).Nodup) :
    ((mergeRmse (fun l : ResRow => l.coin) (fun l : ResRow => l.timeFrame) tfs rmseFor df).countP
        (fun p => p.1.timeFrame = t)
      ≤ min (df.countP (fun l => l.timeFrame = t))
          ((rmseTable tfs rmseFor).countP (fun r => r.timeFrame = t)))
    ∧ (∀ p ∈ mergeRmse (fun l : ResRow => l.coin) (fun l : ResRow => l.timeFrame) tfs rmseFor df,
        (p.1.coin, p.1.timeFrame) ∈ df.map (fun l : ResRow => (l.coin, l.timeFrame))
        ∧ (p.1.coin, p.1.timeFrame) ∈ (rmseTable tfs rmseFor).map rmsKey)
    ∧ (∀ l ∈ df, (l.coin, l.timeFrame) ∉ (rmseTable tfs rmseFor).map rmsKey
        → ∀ p ∈ mergeRmse (fun l : ResRow => l.coin) (fun l : ResRow => l.timeFrame) tfs rmseFor df,
            (p.1.coin, p.1.timeFrame) ≠ (l.coin, l.timeFrame)) := by
  refine ⟨?_, ?_, ?_⟩
  · exact le_min
      (innerMerge_countTF_le_left (fun l : ResRow => l.coin) (fun l : ResRow => l.timeFrame)
        (rmseTable tfs rmseFor) df t hR)
      (innerMerge_countTF_le_right (fun l : ResRow => l.coin) (fun l : ResRow => l.timeFrame)
        (rmseTable tfs rmseFor) df t hL)
  · intro p hp
    obtain ⟨h1, h2, h3, h4⟩ := innerMerge_mem _ _ _ _ p hp
    refine ⟨List.mem_map.mpr ⟨p.1, h1, rfl⟩, ?_⟩
    have hk : (p.1.coin, p.1.timeFrame) = rmsKey p.2 := by
      simp only [rmsKey]
      rw [h3, h4]
    rw [hk]
    exact List.mem_map.mpr ⟨p.2, h2, rfl⟩
  · intro l hl hnot p hp heq
    obtain ⟨_, h2, h3, h4⟩ := innerMerge_mem _ _ _ _ p hp
    apply hnot
    have hk : (l.coin, l.timeFrame) = rmsKey p.2 := by
      rw [← heq]
      simp only [rmsKey]
      rw [h3, h4]
    rw [hk]
    exact List.mem_map.mpr ⟨p.2, h2, rfl⟩

theorem mergeRmse_inner_join_witness :
    (mergeRmse (fun l : ResRow => l.coin) (fun l : ResRow => l.timeFrame) ["1d"]
        (fun tf => if tf = "1d" then [⟨"BTC", [("ARIMA", mkRat 1 20)]⟩] else [])
        [⟨"BTC", "1d", "Autocorrelated"⟩, ⟨"ETH", "1d", "Not Autocorrelated"⟩]).countP
      (fun p => p.1.timeFrame = "1d")
      ≤ min
        (([⟨"BTC", "1d", "Autocorrelated"⟩,
            ⟨"ETH", "1d", "Not Autocorrelated"⟩] : List ResRow).countP
          (fun l => l.timeFrame = "1d"))
        ((rmseTable ["1d"]
            (fun tf => if tf = "1d" then [⟨"BTC", [("ARIMA", mkRat 1 20)]⟩] else [])).countP
          (fun r => r.timeFrame = "1d")) :=
  (mergeRmse_inner_join ["1d"]
    (fun tf => if tf = "1d" then [⟨"BTC", [("ARIMA", mkRat 1 20)]⟩] else [])
    [⟨"BTC", "1d", "Autocorrelated"⟩, ⟨"ETH", "1d", "Not Autocorrelated"⟩]
    "1d" (by decide) (by decide)).1

lemma filter_pairs_by_fst {β : Type} (g : String → String × β)
    (hg : ∀ x, (g x).1 = x) (models : List String) (m : String)
    (hnd : models.Nodup) (hm : m ∈ models) :
    (models.map g).filter (fun p => p.1 = m) = [g m] := by
  induction models with
  | nil => cases hm
  | cons a t ih =>
    rw [List.nodup_cons] at hnd
    rw [List.map_cons]
    by_cases h : a = m
    · subst h
      have hz : (t.map g).filter (fun p => p.1 = a) = [] := by
        rw [List.filter_eq_nil_iff]
        intro p hp
        rcases List.mem_map.mp hp with ⟨x, hx, rfl⟩
        simp only [decide_eq_true_eq, hg]
        intro he
        exact hnd.1 (he ▸ hx)
      simp [List.filter_cons, hg, hz]
    · have ih' := ih hnd.2 ((List.mem_cons.mp hm).resolve_left (fun he => h he.symm))
      simp [List.filter_cons, hg, h, ih']

/-- C5 counterexample: `uncon_het` runs two Mann-Whitney comparisons per
forecasting model (one per label column), not exactly one: with the single
model "ARIMA", two invocations carry the key "ARIMA". -/
theorem unconHet_single_test_counterexample :
    ((unconHetTests ["ARIMA"]
        ([(⟨"BTC", "1d", "heteroskedastic", "heteroskedastic"⟩,
            ⟨"BTC", "1d", [("ARIMA", mkRat 1 20)]⟩),
          (⟨"ETH", "1d", "homoskedastic", "homoskedastic"⟩,
            ⟨"ETH", "1d", [("ARIMA", mkRat 1 10)]⟩)] :
          List (HetRow × RmseTRow))).filter
      (fun p => p.1 = "ARIMA")).length = 2 := by decide

/-- C5 (amended): for every model of the (duplicate-free) configured model
list, the heteroskedasticity analysis applies exactly one Mann-Whitney U
comparison per label column over the label-partitioned error column: one
over the Breusch-Pagan partition and one over the Goldfeld-Quandt partition,
hence exactly two Mann-Whitney invocations per model. -/
theorem unconHet_two_tests_per_model
    (models : List String) (merged : List (HetRow × RmseTRow)) (m : String)
    (hnd : models.Nodup) (hm : m ∈ models) :
    (unconHetTests models merged).filter (fun p => p.1 = m)
      = [(m, mannwhitneyu (groupsBy HetRow.breuschPagan merged m)),
         (m, mannwhitneyu (groupsBy HetRow.goldfeldQuandt merged m))]
    ∧ ((unconHetTests models merged).filter (fun p => p.1 = m)).length = 2 := by
  have h1 := filter_pairs_by_fst
    (fun x => (x, mannwhitneyu (groupsBy HetRow.breuschPagan merged x)))
    (fun _ => rfl) models m hnd hm
  have h2 := filter_pairs_by_fst
    (fun x => (x, mannwhitneyu (groupsBy HetRow.goldfeldQuandt merged x)))
    (fun _ => rfl) models m hnd hm
  have heq : (unconHetTests models merged).filter (fun p => p.1 = m)
      = [(m, mannwhitneyu (groupsBy HetRow.breuschPagan merged m)),
         (m, mannwhitneyu (groupsBy HetRow.goldfeldQuandt merged m))] := by
    unfold unconHetTests
    rw [List.filter_append, h1, h2]
    rfl
  exact ⟨heq, by rw [heq]; rfl⟩

theorem unconHet_two_tests_per_model_witness :
    (unconHetTests ["ARIMA"]
        [(⟨"BTC", "1d", "heteroskedastic", "heteroskedastic"⟩,
           ⟨"BTC", "1d", [("ARIMA", mkRat 1 20)]⟩)]).filter
      (fun p => p.1 = "ARIMA")
      = [("ARIMA", mannwhitneyu (groupsBy HetRow.breuschPagan
            [(⟨"BTC", "1d", "heteroskedastic", "heteroskedastic"⟩,
               ⟨"BTC", "1d", [("ARIMA", mkRat 1 20)]⟩)] "ARIMA")),
         ("ARIMA", mannwhitneyu (groupsBy HetRow.goldfeldQuandt
            [(⟨"BTC", "1d", "heteroskedastic", "heteroskedastic"⟩,
               ⟨"BTC", "1d", [("ARIMA", mkRat 1 20)]⟩)] "ARIMA"))] :=
  (unconHet_two_tests_per_model ["ARIMA"]
    [(⟨"BTC", "1d", "heteroskedastic", "heteroskedastic"⟩,
       ⟨"BTC", "1d", [("ARIMA", mkRat 1 20)]⟩)] "ARIMA"
    (by decide) (by decide)).1

/-- C6: on the two-row scenario (BTC/1d labeled "Autocorrelated" with ARIMA
error 0.05, ETH/1d labeled "Not Autocorrelated" with ARIMA error 0.10), the
Mann-Whitney comparison of the two single-element groups succeeds — the
result is `some` (a computable statistic and p-value, no crash) — and the
printed `results` report carries the key "ARIMA". -/
theorem mannwhitney_scenario_arima :
    (trendComparator ["ARIMA"]
        (mergeRmse (fun l : ResRow => l.coin) (fun l : ResRow => l.timeFrame) ["1d"]
          (fun tf => if tf = "1d"
            then [⟨"BTC", [("ARIMA", mkRat 1 20)]⟩, ⟨"ETH", [("ARIMA", mkRat 1 10)]⟩]
            else [])
          [⟨"BTC", "1d", "Autocorrelated"⟩, ⟨"ETH", "1d", "Not Autocorrelated"⟩]))
      = [("ARIMA", some (mkRat 0 2))]
    ∧ "ARIMA" ∈ (trendComparator ["ARIMA"]
        (mergeRmse (fun l : ResRow => l.coin) (fun l : ResRow => l.timeFrame) ["1d"]
          (fun tf => if tf = "1d"
            then [⟨"BTC", [("ARIMA", mkRat 1 20)]⟩, ⟨"ETH", [("ARIMA", mkRat 1 10)]⟩]
            else [])
          [⟨"BTC", "1d", "Autocorrelated"⟩,
            ⟨"ETH", "1d", "Not Autocorrelated"⟩])).map Prod.fst := by decide

/-- C3: `df.apply(find_majority, axis=1)` feeds the whole row to the vote,
Coin and Time Frame cells included: on a row whose three test outcomes all
differ, the chosen label is the coin name "BTC" — not a test outcome at
all — while a majority vote over the test-outcome columns alone would pick
the first-encountered outcome "increasing". -/
theorem trend_majority_includes_key_cells :
    trendResultColumn [⟨"BTC", "1d", ["increasing", "decreasing", "no trend"]⟩]
      = ["BTC"]
    ∧ findMajority ["increasing", "decreasing", "no trend"] = "increasing"
    ∧ "BTC" ∉ ["increasing", "decreasing", "no trend"] := by decide

/-- C8: a loader failure (missing or malformed input CSV) propagates to the
caller unchanged: no recovery is attempted and no partial result is
produced by either analysis body. -/
theorem loader_error_propagation (e : LoadError) :
    highAutoCorFromCsv (Except.error e) = Except.error e
    ∧ trendFromCsv (Except.error e) = Except.error e := by
  constructor <;> rfl

/-- C7 counterexample: `str.replace` rewrites substrings, not whole cells,
so the directional folding is not idempotent on every column: the cell
"decreasingecreasing" becomes "trendecreasing" after one application — which
still contains "decreasing" — and "trentrend" after two. -/
theorem foldDirectional_idempotence_counterexample :
    foldDirectionalColumn (foldDirectionalColumn ["decreasingecreasing".toList])
      ≠ foldDirectionalColumn ["decreasingecreasing".toList] := by decide

lemma replaceSubFuel_of_no_occ (pat rep : List Char) (fuel : Nat) :
    ∀ s : List Char, hasOcc pat s = false → replaceSubFuel fuel pat rep s = s := by
  induction fuel with
  | zero => intro s _; rfl
  | succ n ih =>
    intro s h
    cases s with
    | nil => rfl
    | cons c tl =>
      simp only [hasOcc, Bool.or_eq_false_iff] at h
      simp only [replaceSubFuel]
      rw [if_neg (by simp [h.1]), ih tl h.2]

lemma replaceSub_of_no_occ (pat rep s : List Char) (h : hasOcc pat s = false) :
    replaceSub pat rep s = s :=
  replaceSubFuel_of_no_occ pat rep s.length s h

lemma foldCell_idem (s : List Char)
    (h : s = "increasing".toList ∨ s = "decreasing".toList
        ∨ (hasOcc ("increasing".toList) s = false
            ∧ hasOcc ("decreasing".toList) s = false)) :
    replaceSub ("decreasing".toList) ("trend".toList)
        (replaceSub ("increasing".toList) ("trend".toList)
          (replaceSub ("decreasing".toList) ("trend".toList)
            (replaceSub ("increasing".toList) ("trend".toList) s)))
      = replaceSub ("decreasing".toList) ("trend".toList)
          (replaceSub ("increasing".toList) ("trend".toList) s) := by
  rcases h with rfl | rfl | ⟨h1, h2⟩
  · decide
  · decide
  · rw [replaceSub_of_no_occ _ _ _ h1, replaceSub_of_no_occ _ _ _ h2,
      replaceSub_of_no_occ _ _ _ h1, replaceSub_of_no_occ _ _ _ h2]

/-- C7 (amended): the directional folding is idempotent on every label
column whose cells are whole labels — each cell is exactly "increasing",
exactly "decreasing", or contains neither word as a substring (as the
categorical outcomes of the trend pipeline are); applying the relabeling
twice then equals applying it once. -/
theorem foldDirectional_idempotent_on_labels
    (col : List (List Char))
    (h : ∀ s ∈ col, s = "increasing".toList ∨ s = "decreasing".toList
        ∨ (hasOcc ("increasing".toList) s = false
            ∧ hasOcc ("decreasing".toList) s = false)) :
    foldDirectionalColumn (foldDirectionalColumn col) = foldDirectionalColumn col := by
  unfold foldDirectionalColumn colReplace
  simp only [List.map_map]
  apply List.map_congr_left
  intro s hs
  simp only [Function.comp]
  exact foldCell_idem s (h s hs)

theorem foldDirectional_idempotent_on_labels_witness :
    foldDirectionalColumn
        (foldDirectionalColumn
          ["increasing".toList, "decreasing".toList, "no trend".toList])
      = foldDirectionalColumn
          ["increasing".toList, "decreasing".toList, "no trend".toList] :=
  foldDirectional_idempotent_on_labels
    ["increasing".toList, "decreasing".toList, "no trend".toList] (by decide)
